import Mathlib

/-!
Shallow embedding of the trending-keyword pipeline:
`mapper.py` (rank-to-weight assignment), `reducer.py` (sorted-stream
aggregation), `segment.py` (cleaning, token filtering, phrase merging,
deduplication, batch driver) and `web/app.py` (`parse_top20`).
Python strings are modelled as Lean `String` (a list of unicode
characters, so `len` is `List.length` of the character list).
-/

namespace Hadoop

/-! ### Python string primitives -/

/-- Whitespace characters recognised by Python `str.strip()` / `str.split()`
(ASCII subset; the pipeline's data never contains exotic unicode spaces). -/
def isPySpace (c : Char) : Bool :=
  c = ' ' || c = '\t' || c = '\n' || c = '\r' || c = Char.ofNat 11 || c = Char.ofNat 12

/-- Python `str.strip()` on a character list. -/
def pyStripList (l : List Char) : List Char :=
  ((l.dropWhile isPySpace).reverse.dropWhile isPySpace).reverse

/-- Python `str.strip()`. -/
def pyStrip (s : String) : String :=
  ⟨pyStripList s.data⟩

/-- Python `s.split(sep, 1)`: the part before the first occurrence of `sep`,
and `some` remainder when `sep` occurs (so `none` models a 1-element split). -/
def splitFirst (sep : Char) : List Char → List Char × Option (List Char)
  | [] => ([], none)
  | c :: rest =>
      if c = sep then ([], some rest)
      else
        let p := splitFirst sep rest
        (c :: p.1, p.2)

/-- Value of a nonempty all-ASCII-digit character list, else `none`. -/
def digitsVal (l : List Char) : Option Nat :=
  if l ≠ [] ∧ l.all Char.isDigit then
    some (l.foldl (fun acc c => acc * 10 + (c.toNat - 48)) 0)
  else none

/-- Python `int(s)`: strips whitespace, optional sign, then decimal digits
(the underscore-separator extension is not modelled; no input here uses it). -/
def pyInt (s : String) : Option Int :=
  match pyStripList s.data with
  | '-' :: rest => (digitsVal rest).map (fun n => -(n : Int))
  | '+' :: rest => (digitsVal rest).map (fun n => (n : Int))
  | l => (digitsVal l).map (fun n => (n : Int))

/-- Helper for `pySplitWS`: `acc` holds the reversed current chunk. -/
def splitWSAux : List Char → List Char → List (List Char)
  | [], acc => if acc = [] then [] else [acc.reverse]
  | c :: rest, acc =>
      if isPySpace c then
        if acc = [] then splitWSAux rest [] else acc.reverse :: splitWSAux rest []
      else splitWSAux rest (c :: acc)

/-- Python `str.split()` with no argument: maximal nonempty runs of
non-whitespace characters. -/
def pySplitWS (l : List Char) : List (List Char) :=
  splitWSAux l []

/-- Python `str.splitlines()` restricted to the newline separator. -/
def pySplitLines (s : String) : List String :=
  (s.data.splitOn '\n').map (fun l => (⟨l⟩ : String))

/-! ### mapper.py — Weight Assigner

Source loop: strip the line; skip it when empty or comma-free; split once on
the comma; `weight = 51 - int(rank)` clamped below at 1, and on an `int`
parse failure fall back to `weight = 1` with the same words part. One output
record per whitespace token of the words part. -/

/-- Fields of a mapper input line: the part before the first comma of the
stripped line, and the part after it (empty when there is no comma). -/
def mapperFields (line : String) : List Char × List Char :=
  let l := pyStripList line.data
  let p := splitFirst ',' l
  (p.1, p.2.getD [])

/-- Records emitted by `mapper.py` for one input line. -/
def mapperLine (line : String) : List (String × Int) :=
  let l := pyStripList line.data
  if l = [] then []
  else if ¬ (',' ∈ l) then []
  else
    let f := mapperFields line
    let weight : Int :=
      match pyInt ⟨f.1⟩ with
      | some rank => if 51 - rank < 1 then 1 else 51 - rank
      | none => 1
    ((pySplitWS f.2).filter (fun w => w ≠ [])).map (fun w => ((⟨w⟩ : String), weight))

/-! ### reducer.py — Aggregator -/

/-- Parse of one reducer input line: strip, require a tab, integer weight. -/
def parseReducerLine (line : String) : Option (String × Int) :=
  let l := pyStripList line.data
  if l = [] then none
  else
    match splitFirst '\t' l with
    | (_, none) => none
    | (w, some rest) =>
        match pyInt ⟨rest⟩ with
        | none => none
        | some c => some ((⟨w⟩ : String), c)

/-- The reducer's fold over already-parsed records, carrying the
`current_word`/`current_sum` accumulator; flushes on term change and at end. -/
def foldRecs : Option (String × Int) → List (String × Int) → List (String × Int)
  | none, [] => []
  | some acc, [] => [acc]
  | none, r :: rest => foldRecs (some r) rest
  | some (w, s), (t, c) :: rest =>
      if w = t then foldRecs (some (w, s + c)) rest
      else (w, s) :: foldRecs (some (t, c)) rest

/-- The reducer's stdin loop: parse each line (skipping unparseable ones)
and fold with the accumulator. -/
def reducerSteps : Option (String × Int) → List String → List (String × Int)
  | acc, [] => foldRecs acc []
  | acc, line :: rest =>
      match parseReducerLine line with
      | none => reducerSteps acc rest
      | some (t, c) =>
          match acc with
          | none => reducerSteps (some (t, c)) rest
          | some (w, s) =>
              if w = t then reducerSteps (some (w, s + c)) rest
              else (w, s) :: reducerSteps (some (t, c)) rest

/-- Full run of `reducer.py` on a list of input lines. -/
def reducerRun (lines : List String) : List (String × Int) :=
  reducerSteps none lines

/-- Flattening of a list of term groups `(term, weights)` into the record
stream that presents each group's records contiguously. -/
def flattenGroups (gs : List (String × List Int)) : List (String × Int) :=
  (gs.map (fun g => g.2.map (fun c => (g.1, c)))).flatten

/-! ### segment.py — constants -/

/-- Variant-canonicalization table `NORMALIZE_MAP`. -/
def NORMALIZE_MAP : List (String × String) :=
  [("爆光", "曝光"), ("官宣了", "官宣"), ("官宣啦", "官宣"), ("预告", "预告片")]

/-- Fixed noise/blacklist set `BAD_WORDS`. -/
def BAD_WORDS : List String :=
  ["粉丝", "感动", "预告片", "回收", "产业链", "摔倒", "房型",
   "妹妹", "妹", "妹子", "小妹", "儿子", "女儿", "老公", "老婆",
   "姐姐", "姐", "哥哥", "哥", "妈妈", "妈", "爸爸", "爸",
   "小", "大", "太", "很", "真的", "觉得", "好像", "一个",
   "现场", "视频", "照片", "网友", "热搜", "回应", "最新",
   "爆料", "真相", "原因", "结果", "进展", "后续", "瓜",
   "妹小"]

/-- Single kinship characters of the `KINSHIP_RE` alternation. -/
def kinChars : List Char :=
  ['妹', '姐', '哥', '弟', '嫂', '姨', '叔', '舅', '爸', '妈', '爹', '娘']

/-- Two-character kinship words of the `KINSHIP_RE` alternation. -/
def kinPairs : List (Char × Char) :=
  [('儿', '子'), ('女', '儿'), ('老', '公'), ('老', '婆')]

/-- Occurrence test for `KINSHIP_RE.search` on a character list: some single
kinship character occurs, or some adjacent pair spells a kinship word. -/
def kinshipList : List Char → Bool
  | [] => false
  | [c] => c ∈ kinChars
  | c1 :: c2 :: rest =>
      c1 ∈ kinChars || (c1, c2) ∈ kinPairs || kinshipList (c2 :: rest)

/-- Python `KINSHIP_RE.search(w) is not None`. -/
def kinship_search (w : String) : Bool :=
  kinshipList w.data

/-- Exact part-of-speech allowlist `ALLOW_POS_EXACT`. -/
def ALLOW_POS_EXACT : List String := ["nr", "ns", "nt", "nz"]

/-- Fixed dangerous-component set `BAD_COMPONENT` of the phrase merger. -/
def BAD_COMPONENT : List String := ["妹", "小", "姐", "哥", "儿子", "女儿", "粉丝"]

/-! ### segment.py — character classes and Normalizer -/

/-- ASCII Latin letter (regex class `[A-Za-z]`). -/
def isLatinChar (c : Char) : Bool :=
  ('A' ≤ c && c ≤ 'Z') || ('a' ≤ c && c ≤ 'z')

/-- CJK ideograph (regex class `[一-鿿]`). -/
def isCJKChar (c : Char) : Bool :=
  0x4e00 ≤ c.toNat && c.toNat ≤ 0x9fff

/-- Python `re.fullmatch(r"[A-Za-z]+", w) is not None`. -/
def latinOnly (w : String) : Bool :=
  ¬ w.data.isEmpty && w.data.all isLatinChar

/-- Python `re.search(r"[一-鿿]", w) is not None`. -/
def hasCJK (w : String) : Bool :=
  w.data.any isCJKChar

/-- Python `w.isdigit()` (ASCII digits; the pipeline has no unicode digits). -/
def pyIsDigit (w : String) : Bool :=
  ¬ w.data.isEmpty && w.data.all Char.isDigit

/-- Python `w.upper()` for the Latin-only tokens this pipeline upcases. -/
def pyUpper (w : String) : String :=
  ⟨w.data.map Char.toUpper⟩

/-- Python `w.startswith(p)` (structural model of `String.startsWith`). -/
def pyStartsWith (w p : String) : Bool :=
  p.data.isPrefixOf w.data

/-- Function `normalize_word`: strip, upcase a pure-Latin token, then apply
the `NORMALIZE_MAP` table. -/
def normalize_word (w : String) : String :=
  let w := pyStrip w
  if w = "" then ""
  else
    let w := if latinOnly w then pyUpper w else w
    match NORMALIZE_MAP.lookup w with
    | some v => v
    | none => w

/-! ### segment.py — Token Filter -/

/-- Function `is_bad_token`: the five lexical noise rules, mirroring the
early-return chain of the source. -/
def is_bad_token (w : String) (stop_set : List String) : Bool :=
  if w = "" then true
  else if w ∈ stop_set then true
  else if w ∈ BAD_WORDS then true
  else if pyIsDigit w then true
  else if latinOnly w ∧ w.data.length < 2 then true
  else if hasCJK w ∧ w.data.length < 2 then true
  else if hasCJK w ∧ w.data.length > 10 then true
  else if kinship_search w ∧ w.data.length ≤ 4 then true
  else false

/-- Function `allow_by_pos`: the part-of-speech allowlist. -/
def allow_by_pos (flag : String) : Bool :=
  if flag = "" then false
  else if flag ∈ ALLOW_POS_EXACT then true
  else if pyStartsWith flag "n" then true
  else if pyStartsWith flag "v" then true
  else false

/-! ### segment.py — tokenize -/

/-- Filter loop of the `pseg` branch of `tokenize`: normalize each
`(word, flag)` pair from the segmenter, then keep it only when nonempty,
`allow_by_pos` accepts the tag and `is_bad_token` rejects nothing. -/
def filterPseg (stop_set : List String) : List (String × String) → List (String × String)
  | [] => []
  | (w0, flag) :: rest =>
      let w := normalize_word w0
      if w = "" then filterPseg stop_set rest
      else if ¬ allow_by_pos flag then filterPseg stop_set rest
      else if is_bad_token w stop_set then filterPseg stop_set rest
      else (w, flag) :: filterPseg stop_set rest

/-- Filter loop of the fallback (no `posseg`) branch of `tokenize`: normalize
each word, keep it unless `is_bad_token` rejects it, tag it with `""`. -/
def filterFallback (stop_set : List String) : List String → List (String × String)
  | [] => []
  | w0 :: rest =>
      let w := normalize_word w0
      if is_bad_token w stop_set then filterFallback stop_set rest
      else (w, "") :: filterFallback stop_set rest

/-- Tag condition `ok1`/`ok2` of the phrase-merging loop: exact proper-noun
tag, noun-class tag, or the empty tag. -/
def mergeTagOk (f : String) : Bool :=
  f ∈ ALLOW_POS_EXACT || pyStartsWith f "n" || f = ""

/-- Decision of the phrase-merging loop for one adjacent pair, returning the
merged phrase when every check passes. -/
def phraseOf (stop_set : List String) (p q : String × String) : Option String :=
  if p.1 ∈ BAD_COMPONENT ∨ q.1 ∈ BAD_COMPONENT then none
  else if kinship_search p.1 ∨ kinship_search q.1 then none
  else if ¬ (mergeTagOk p.2 ∧ mergeTagOk q.2) then none
  else
    let phrase := normalize_word (p.1 ++ q.1)
    if is_bad_token phrase stop_set then none
    else if phrase.data.length < 2 ∨ phrase.data.length > 8 then none
    else some phrase

/-- Phrase-merging loop of `tokenize` over the filtered `pos_list`, visiting
each adjacent pair in order of its starting position. -/
def phrasesList (stop_set : List String) : List (String × String) → List String
  | [] => []
  | [_] => []
  | p :: q :: rest =>
      match phraseOf stop_set p q with
      | some ph => ph :: phrasesList stop_set (q :: rest)
      | none => phrasesList stop_set (q :: rest)

/-- Order-preserving deduplication with an explicit `seen` set, keeping the
first occurrence of each value. -/
def dedupKeep (seen : List String) : List String → List String
  | [] => []
  | w :: rest =>
      if w ∈ seen then dedupKeep seen rest
      else w :: dedupKeep (w :: seen) rest

/-- Tail of `tokenize` shared by both branches: phrases first, then the
filtered single tokens, deduplicated keeping first occurrences, first 40. -/
def postProcess (stop_set : List String) (pos_list : List (String × String)) : List String :=
  (dedupKeep [] (phrasesList stop_set pos_list ++ pos_list.map Prod.fst)).take 40

/-! ### segment.py — clean_title and main -/

/-- Character kept by the `clean_title` regex: CJK ideograph, Latin letter
or ASCII digit. -/
def keepChar (c : Char) : Bool :=
  isCJKChar c || isLatinChar c || ('0' ≤ c && c ≤ '9')

/-- Helper splitting a character list into maximal runs of kept characters
(`acc` holds the reversed current run). -/
def keepRunsAux : List Char → List Char → List (List Char)
  | [], acc => if acc = [] then [] else [acc.reverse]
  | c :: rest, acc =>
      if keepChar c then keepRunsAux rest (c :: acc)
      else if acc = [] then keepRunsAux rest [] else acc.reverse :: keepRunsAux rest []

/-- Function `clean_title`: every maximal run of non-kept characters becomes
one space, whitespace is collapsed and the ends are trimmed — i.e. the
maximal kept-character runs joined by single spaces. -/
def clean_title (s : String) : String :=
  String.intercalate " " ((keepRunsAux s.data []).map (fun l => (⟨l⟩ : String)))

/-- Function `tokenize` in the `pseg` branch, with the external segmenter
modelled as a function `segf` from the cleaned title to its
`(word, flag)` pairs. -/
def tokenize (segf : String → List (String × String)) (stop_set : List String)
    (title : String) : List String :=
  let t := clean_title title
  if t = "" then []
  else postProcess stop_set (filterPseg stop_set (segf t))

/-- Observable effects of `main` in `segment.py`. -/
inductive Eff
  | writeOut : List String → Eff
  | stderrMsg : Eff
  | exitFail : Eff
  | stdoutMsg : Eff
deriving DecidableEq

/-- Per-line body of the loop in `main`: skip blank or comma-free lines,
require a digit rank, tokenize the title, skip titles with no tokens, and
otherwise produce the output line `rank,token1 token2 ...`. -/
def segLine (segf : String → List (String × String)) (stop_set : List String)
    (line : String) : Option String :=
  let l := pyStrip line
  if l = "" then none
  else if ¬ (',' ∈ l.data) then none
  else
    let p := splitFirst ',' l.data
    let rank_str := pyStrip ⟨p.1⟩
    let title := pyStrip ⟨p.2.getD []⟩
    if ¬ pyIsDigit rank_str then none
    else
      let toks := tokenize segf stop_set title
      if toks = [] then none
      else some (rank_str ++ "," ++ String.intercalate " " toks)

/-- Usable output lines of one batch: the input split into lines, each fed
through `segLine`, skipped lines dropped. -/
def usableLines (segf : String → List (String × String)) (stop_set : List String)
    (raw : String) : List String :=
  (pySplitLines raw).filterMap (segLine segf stop_set)

/-- Function `main` of `segment.py` as an effect trace: `none` input models
an absent `news_raw.txt`. A fatal run writes a message to stderr and exits
nonzero without touching the output file; a successful run performs one
complete write of all output lines and reports on stdout. -/
def mainModel (segf : String → List (String × String)) (stop_set : List String)
    (input : Option String) : List Eff :=
  match input with
  | none => [Eff.stderrMsg, Eff.exitFail]
  | some raw =>
      let outs := usableLines segf stop_set raw
      if outs = [] then [Eff.stderrMsg, Eff.exitFail]
      else [Eff.writeOut outs, Eff.stdoutMsg]

/-! ### web/app.py — parse_top20 -/

/-- Per-line parse of `parse_top20`: require a tab, split once, require an
integer count. -/
def parseTopLine (line : String) : Option (String × Int) :=
  match splitFirst '\t' line.data with
  | (_, none) => none
  | (w, some rest) =>
      match pyInt ⟨rest⟩ with
      | none => none
      | some c => some ((⟨w⟩ : String), c)

/-- Parsed data list of `parse_top20`. -/
def topData (lines : List String) : List (String × Int) :=
  lines.filterMap parseTopLine

/-- Comparison used by `data.sort(key=count, reverse=True)`: stable
descending order by count. -/
def topGE (a b : String × Int) : Bool :=
  b.2 ≤ a.2

/-- Function `parse_top20`: parse every line, sort descending by count
(stable, as Python `list.sort`), return the first 20. -/
def parse_top20 (lines : List String) : List (String × Int) :=
  ((topData lines).mergeSort topGE).take 20

/-! ### Helper lemmas -/

theorem splitWSAux_ne_nil (l acc : List Char) : [] ∉ splitWSAux l acc := by
  induction l generalizing acc with
  | nil =>
      unfold splitWSAux
      split
      · simp
      · next h =>
          simp only [List.mem_singleton]
          intro he
          exact h (List.reverse_eq_nil_iff.mp he.symm)
  | cons c rest ih =>
      unfold splitWSAux
      by_cases hs : isPySpace c
      · rw [if_pos hs]
        by_cases ha : acc = []
        · rw [if_pos ha]
          exact ih []
        · rw [if_neg ha]
          simp only [List.mem_cons]
          rintro (he | he)
          · exact ha (List.reverse_eq_nil_iff.mp he.symm)
          · exact ih [] he
      · rw [if_neg hs]
        exact ih (c :: acc)

theorem pySplitWS_filter_ne_nil (l : List Char) :
    (pySplitWS l).filter (fun w => w ≠ []) = pySplitWS l := by
  apply List.filter_eq_self.mpr
  intro w hw
  simp only [ne_eq, decide_not, Bool.not_eq_eq_eq_not, Bool.not_true, decide_eq_false_iff_not]
  intro he
  subst he
  exact splitWSAux_ne_nil l [] hw

/-! ### C1 — mapper weight formula -/

/-- C1: on an input line containing a comma whose rank field parses as an
integer `r ≥ 1`, the mapper emits one record per whitespace token of the
words part, each carrying weight `max 1 (51 - r)` (50 for rank 1, 1 for
rank 50, 1 for every rank above 50). -/
theorem mapper_weight_formula (line : String) (r : Int)
    (hc : ',' ∈ pyStripList line.data)
    (hr : pyInt ⟨(mapperFields line).1⟩ = some r)
    (hpos : 1 ≤ r) :
    mapperLine line =
      (pySplitWS (mapperFields line).2).map
        (fun w => ((⟨w⟩ : String), max 1 (51 - r))) := by
  have hl : pyStripList line.data ≠ [] := by
    intro h
    rw [h] at hc
    simp at hc
  simp only [mapperLine]
  rw [if_neg hl, if_neg (not_not_intro hc)]
  simp only [hr]
  rw [pySplitWS_filter_ne_nil]
  have hw : (if 51 - r < 1 then (1 : Int) else 51 - r) = max 1 (51 - r) := by
    split <;> omega
  rw [hw]

/-- Witness for C1 at the concrete line `1,ab cd` (rank 1, weight 50). -/
theorem mapper_weight_formula_witness :
    (',' ∈ pyStripList ("1,ab cd" : String).data) ∧
    pyInt ⟨(mapperFields "1,ab cd").1⟩ = some 1 ∧ (1 : Int) ≤ 1 ∧
    mapperLine "1,ab cd" =
      (pySplitWS (mapperFields "1,ab cd").2).map
        (fun w => ((⟨w⟩ : String), max 1 (51 - 1))) :=
  ⟨by decide, by decide, by decide,
    mapper_weight_formula "1,ab cd" 1 (by decide) (by decide) (by decide)⟩

/-! ### C7 — mapper fallback for unparseable ranks -/

/-- C7 counterexample: the rank field `0` does not parse as a positive
integer, yet the mapper assigns weight `51 - 0 = 51`, not the claimed
degraded fallback weight 1. -/
theorem mapper_rank_zero_weight_51 :
    pyInt "0" = some 0 ∧ ¬ (1 ≤ (0 : Int)) ∧
    mapperLine "0,foo" = [("foo", 51)] ∧ (51 : Int) ≠ 1 := by
  refine ⟨by decide, by decide, ?_, by decide⟩
  decide

/-- C7 amended: on an input line containing a comma whose rank field does
not parse as an integer at all, the mapper assigns the fallback weight 1 and
still emits one record per whitespace token of the remainder of the line. -/
theorem mapper_fallback_weight_one (line : String)
    (hc : ',' ∈ pyStripList line.data)
    (hr : pyInt ⟨(mapperFields line).1⟩ = none) :
    mapperLine line =
      (pySplitWS (mapperFields line).2).map
        (fun w => ((⟨w⟩ : String), (1 : Int))) := by
  have hl : pyStripList line.data ≠ [] := by
    intro h
    rw [h] at hc
    simp at hc
  simp only [mapperLine]
  rw [if_neg hl, if_neg (not_not_intro hc)]
  simp only [hr]
  rw [pySplitWS_filter_ne_nil]

/-- Witness for the amended C7 at the concrete line `abc,x y`. -/
theorem mapper_fallback_weight_one_witness :
    (',' ∈ pyStripList ("abc,x y" : String).data) ∧
    pyInt ⟨(mapperFields "abc,x y").1⟩ = none ∧
    mapperLine "abc,x y" =
      (pySplitWS (mapperFields "abc,x y").2).map
        (fun w => ((⟨w⟩ : String), (1 : Int))) :=
  ⟨by decide, by decide,
    mapper_fallback_weight_one "abc,x y" (by decide) (by decide)⟩

/-! ### Reducer lemmas -/

theorem reducerSteps_eq_foldRecs (lines : List String) (acc : Option (String × Int)) :
    reducerSteps acc lines = foldRecs acc (lines.filterMap parseReducerLine) := by
  induction lines generalizing acc with
  | nil => rfl
  | cons line rest ih =>
      rw [List.filterMap_cons]
      cases hp : parseReducerLine line with
      | none =>
          simp only [reducerSteps, hp]
          exact ih acc
      | some r =>
          obtain ⟨t, c⟩ := r
          cases acc with
          | none =>
              simp only [reducerSteps, hp]
              rw [ih]
              rfl
          | some a =>
              obtain ⟨w, s⟩ := a
              simp only [reducerSteps, hp, foldRecs]
              by_cases he : w = t
              · rw [if_pos he, if_pos he, ih]
              · rw [if_neg he, if_neg he, ih]

theorem foldRecs_run (w : String) (s : Int) (ws : List Int) (rest : List (String × Int)) :
    foldRecs (some (w, s)) (ws.map (fun c => (w, c)) ++ rest) =
      foldRecs (some (w, s + ws.sum)) rest := by
  induction ws generalizing s with
  | nil => simp
  | cons c ws ih =>
      have step : foldRecs (some (w, s)) ((c :: ws).map (fun c => (w, c)) ++ rest) =
          foldRecs (some (w, s + c)) (ws.map (fun c => (w, c)) ++ rest) := by
        show foldRecs (some (w, s)) ((w, c) :: (ws.map (fun c => (w, c)) ++ rest)) = _
        simp [foldRecs]
      rw [step, ih, List.sum_cons, add_assoc]

theorem foldRecs_flattenGroups (gs : List (String × List Int)) (w : String) (s : Int)
    (hnodup : (gs.map Prod.fst).Nodup) (hne : ∀ g ∈ gs, g.2 ≠ [])
    (hout : w ∉ gs.map Prod.fst) :
    foldRecs (some (w, s)) (flattenGroups gs) =
      (w, s) :: gs.map (fun g => (g.1, g.2.sum)) := by
  induction gs generalizing w s with
  | nil => rfl
  | cons g gs ih =>
      obtain ⟨t, ws⟩ := g
      have hws : ws ≠ [] := hne (t, ws) (List.mem_cons_self _ _)
      obtain ⟨c, ws', rfl⟩ := List.exists_cons_of_ne_nil hws
      have hwt : w ≠ t := by
        intro h
        exact hout (h ▸ List.mem_cons_self _ _)
      have ht : t ∉ gs.map Prod.fst := (List.nodup_cons.mp hnodup).1
      have hexp : flattenGroups ((t, c :: ws') :: gs) =
          (t, c) :: (ws'.map (fun c => (t, c)) ++ flattenGroups gs) := rfl
      rw [hexp]
      have hstep : foldRecs (some (w, s)) ((t, c) :: (ws'.map (fun c => (t, c)) ++ flattenGroups gs)) =
          (w, s) :: foldRecs (some (t, c)) (ws'.map (fun c => (t, c)) ++ flattenGroups gs) := by
        simp [foldRecs, hwt]
      rw [hstep, foldRecs_run,
        ih t (c + ws'.sum) (List.nodup_cons.mp hnodup).2
          (fun g hg => hne g (List.mem_cons_of_mem _ hg)) ht]
      simp [List.sum_cons]

/-! ### C3 — reducer on grouped input -/

/-- C3: on an input stream whose parseable records form contiguous groups of
pairwise-distinct terms (the grouped/sorted precondition), the reducer emits
exactly one record per distinct term, in first-appearance order, carrying the
sum of that term's weights; unparseable lines are skipped. -/
theorem reducer_grouped (lines : List String) (gs : List (String × List Int))
    (hparse : lines.filterMap parseReducerLine = flattenGroups gs)
    (hnodup : (gs.map Prod.fst).Nodup) (hne : ∀ g ∈ gs, g.2 ≠ []) :
    reducerRun lines = gs.map (fun g => (g.1, g.2.sum)) := by
  unfold reducerRun
  rw [reducerSteps_eq_foldRecs, hparse]
  cases gs with
  | nil => rfl
  | cons g gs =>
      obtain ⟨t, ws⟩ := g
      have hws : ws ≠ [] := hne (t, ws) (List.mem_cons_self _ _)
      obtain ⟨c, ws', rfl⟩ := List.exists_cons_of_ne_nil hws
      have ht : t ∉ gs.map Prod.fst := (List.nodup_cons.mp hnodup).1
      have hexp : flattenGroups ((t, c :: ws') :: gs) =
          (t, c) :: (ws'.map (fun c => (t, c)) ++ flattenGroups gs) := rfl
      rw [hexp]
      have hstep : foldRecs none ((t, c) :: (ws'.map (fun c => (t, c)) ++ flattenGroups gs)) =
          foldRecs (some (t, c)) (ws'.map (fun c => (t, c)) ++ flattenGroups gs) := rfl
      rw [hstep, foldRecs_run,
        foldRecs_flattenGroups gs t (c + ws'.sum) (List.nodup_cons.mp hnodup).2
          (fun g hg => hne g (List.mem_cons_of_mem _ hg)) ht]
      simp [List.sum_cons]

/-- Witness for C3: the spec's concrete example `a␉1`, `a␉2`, `b␉3` produces
exactly `a␉3` then `b␉3`. -/
theorem reducer_grouped_witness :
    (["a\t1", "a\t2", "b\t3"].filterMap parseReducerLine =
      flattenGroups [("a", [1, 2]), ("b", [3])]) ∧
    reducerRun ["a\t1", "a\t2", "b\t3"] = [("a", 3), ("b", 3)] :=
  ⟨by decide,
    (reducer_grouped ["a\t1", "a\t2", "b\t3"] [("a", [1, 2]), ("b", [3])]
      (by decide) (by decide) (by decide)).trans (by decide)⟩

/-! ### C10 — reducer conserves total weight -/

theorem foldRecs_sum (recs : List (String × Int)) (acc : Option (String × Int)) :
    ((foldRecs acc recs).map Prod.snd).sum =
      (match acc with | none => 0 | some a => a.2) + (recs.map Prod.snd).sum := by
  induction recs generalizing acc with
  | nil =>
      cases acc with
      | none => simp [foldRecs]
      | some a => simp [foldRecs]
  | cons r rest ih =>
      obtain ⟨t, c⟩ := r
      cases acc with
      | none =>
          have h1 : foldRecs none ((t, c) :: rest) = foldRecs (some (t, c)) rest := rfl
          rw [h1, ih]
          simp [add_assoc]
      | some a =>
          obtain ⟨w, s⟩ := a
          by_cases he : w = t
          · have h1 : foldRecs (some (w, s)) ((t, c) :: rest) =
                foldRecs (some (w, s + c)) rest := by
              simp [foldRecs, he]
            rw [h1, ih]
            simp [add_assoc]
          · have h1 : foldRecs (some (w, s)) ((t, c) :: rest) =
                (w, s) :: foldRecs (some (t, c)) rest := by
              simp [foldRecs, he]
            rw [h1]
            simp only [List.map_cons, List.sum_cons]
            rw [ih]

/-- C10: for every input stream, sorted or not, the sum of the weights the
reducer emits equals the sum of the weights of all parseable input lines. -/
theorem reducer_conserves_weight (lines : List String) :
    ((reducerRun lines).map Prod.snd).sum =
      ((lines.filterMap parseReducerLine).map Prod.snd).sum := by
  unfold reducerRun
  rw [reducerSteps_eq_foldRecs, foldRecs_sum]
  simp

/-! ### Token-filter lemmas -/

theorem is_bad_token_eq_false_iff (w : String) (stop_set : List String) :
    is_bad_token w stop_set = false ↔
      (w ≠ "" ∧ w ∉ stop_set ∧ w ∉ BAD_WORDS ∧ pyIsDigit w = false ∧
       ¬ (latinOnly w = true ∧ w.data.length < 2) ∧
       (hasCJK w = true → 2 ≤ w.data.length ∧ w.data.length ≤ 10) ∧
       ¬ (kinship_search w = true ∧ w.data.length ≤ 4)) := by
  unfold is_bad_token
  split_ifs with h1 h2 h3 h4 h5 h6 h7 h8 <;> simp_all

theorem allow_by_pos_iff (flag : String) :
    allow_by_pos flag = true ↔
      (flag ∈ ALLOW_POS_EXACT ∨ pyStartsWith flag "n" = true ∨ pyStartsWith flag "v" = true) := by
  unfold allow_by_pos
  split_ifs with h1 h2 h3 h4 <;> simp_all
  subst h1
  decide

/-! ### C4 — token filter keep condition -/

/-- C4: the Token Filter (part-of-speech allowlist plus `is_bad_token`)
keeps a `(token, posTag)` pair exactly when the token is nonempty, not a
stop term, not blacklisted, not all digits, not a short pure-Latin string,
within length 2–10 when it contains a CJK ideograph, not a short kinship
fragment, and the posTag is an exact proper-noun tag or starts with `n`
or `v`. -/
theorem token_filter_iff (w flag : String) (stop_set : List String) :
    (allow_by_pos flag && !(is_bad_token w stop_set)) = true ↔
      (w ≠ "" ∧ w ∉ stop_set ∧ w ∉ BAD_WORDS ∧ pyIsDigit w = false ∧
       ¬ (latinOnly w = true ∧ w.data.length < 2) ∧
       (hasCJK w = true → 2 ≤ w.data.length ∧ w.data.length ≤ 10) ∧
       ¬ (kinship_search w = true ∧ w.data.length ≤ 4) ∧
       (flag ∈ ALLOW_POS_EXACT ∨ pyStartsWith flag "n" = true ∨ pyStartsWith flag "v" = true)) := by
  rw [Bool.and_eq_true, Bool.not_eq_true', allow_by_pos_iff, is_bad_token_eq_false_iff]
  tauto

/-- Witness for C4 at the concrete pair `(你好, nr)` with an empty stop set. -/
theorem token_filter_iff_witness :
    (allow_by_pos "nr" && !(is_bad_token "你好" [])) = true ↔
      (("你好" : String) ≠ "" ∧ ("你好" : String) ∉ ([] : List String) ∧
       ("你好" : String) ∉ BAD_WORDS ∧ pyIsDigit "你好" = false ∧
       ¬ (latinOnly "你好" = true ∧ ("你好" : String).data.length < 2) ∧
       (hasCJK "你好" = true → 2 ≤ ("你好" : String).data.length ∧ ("你好" : String).data.length ≤ 10) ∧
       ¬ (kinship_search "你好" = true ∧ ("你好" : String).data.length ≤ 4) ∧
       (("nr" : String) ∈ ALLOW_POS_EXACT ∨ pyStartsWith "nr" "n" = true ∨
        pyStartsWith "nr" "v" = true)) :=
  token_filter_iff "你好" "nr" []

/-! ### C6 — empty posTag -/

/-- C6 counterexample: the token `你好` passes every lexical noise rule, yet
with an empty posTag the `pseg`-branch filter drops it, because
`allow_by_pos` treats an empty tag as a rejection signal. -/
theorem empty_posTag_rejected_in_pseg_branch :
    is_bad_token "你好" [] = false ∧ allow_by_pos "" = false ∧
    filterPseg [] [("你好", "")] = [] := by
  refine ⟨by decide, by decide, ?_⟩
  decide

/-- C6 amended: an empty posTag is treated as allowed where the program
actually produces one — the fallback branch keeps every token passing the
lexical rules without consulting any tag, and the phrase merger's tag check
accepts the empty tag — while the `allow_by_pos` allowlist itself rejects
an empty tag. -/
theorem empty_posTag_allowed_in_fallback_and_merger :
    (∀ (stop_set : List String) (ws : List String),
       filterFallback stop_set ws =
         ((ws.map normalize_word).filter (fun w => !(is_bad_token w stop_set))).map
           (fun w => (w, ""))) ∧
    mergeTagOk "" = true ∧ allow_by_pos "" = false := by
  refine ⟨?_, by decide, by decide⟩
  intro stop_set ws
  induction ws with
  | nil => rfl
  | cons w rest ih =>
      simp only [filterFallback, List.map_cons, List.filter_cons]
      cases hb : is_bad_token (normalize_word w) stop_set with
      | false => simp [hb, ih]
      | true => simp [hb, ih]

/-! ### C5 — phrase merger -/

theorem mergeTagOk_iff (f : String) :
    mergeTagOk f = true ↔ (f ∈ ALLOW_POS_EXACT ∨ pyStartsWith f "n" = true ∨ f = "") := by
  simp [mergeTagOk, Bool.or_eq_true, decide_eq_true_eq, or_assoc]

/-- C5: the phrase merger emits a phrase for an adjacent pair exactly when
neither token is a dangerous component, neither matches the kinship pattern,
both tags are empty, proper-noun or noun-class, and the concatenation after
the Normalizer passes the five lexical noise rules with length between 2 and
8; the surviving phrases are collected in order of the pair's starting
position (one candidate per adjacent pair of the filtered sequence). -/
theorem phrase_merger_spec :
    (∀ (stop_set : List String) (w1 f1 w2 f2 ph : String),
       phraseOf stop_set (w1, f1) (w2, f2) = some ph ↔
         (w1 ∉ BAD_COMPONENT ∧ w2 ∉ BAD_COMPONENT ∧
          kinship_search w1 = false ∧ kinship_search w2 = false ∧
          (f1 ∈ ALLOW_POS_EXACT ∨ pyStartsWith f1 "n" = true ∨ f1 = "") ∧
          (f2 ∈ ALLOW_POS_EXACT ∨ pyStartsWith f2 "n" = true ∨ f2 = "") ∧
          is_bad_token (normalize_word (w1 ++ w2)) stop_set = false ∧
          2 ≤ (normalize_word (w1 ++ w2)).data.length ∧
          (normalize_word (w1 ++ w2)).data.length ≤ 8 ∧
          ph = normalize_word (w1 ++ w2))) ∧
    (∀ (stop_set : List String) (pos_list : List (String × String)),
       phrasesList stop_set pos_list =
         (pos_list.zip pos_list.tail).filterMap (fun pq => phraseOf stop_set pq.1 pq.2)) := by
  constructor
  · intro stop_set w1 f1 w2 f2 ph
    unfold phraseOf
    simp only [mergeTagOk_iff]
    split_ifs with h1 h2 h3 h4 h5 <;> simp_all
    all_goals first
      | exact eq_comm
      | (intros; omega)
      | (intros; simp_all)
  · intro stop_set pos_list
    induction pos_list with
    | nil => rfl
    | cons p rest ih =>
        cases rest with
        | nil => rfl
        | cons q rest' =>
            simp only [phrasesList, List.tail_cons, List.zip_cons_cons, List.filterMap_cons]
            cases hp : phraseOf stop_set p q with
            | none => simpa [hp] using ih
            | some ph => simpa [hp] using ih

/-! ### Deduplication lemmas -/

theorem dedupKeep_congr (l : List String) (s1 s2 : List String)
    (h : ∀ w, w ∈ s1 ↔ w ∈ s2) : dedupKeep s1 l = dedupKeep s2 l := by
  induction l generalizing s1 s2 with
  | nil => rfl
  | cons w rest ih =>
      by_cases hw : w ∈ s1
      · rw [dedupKeep, if_pos hw, dedupKeep, if_pos ((h w).mp hw)]
        exact ih s1 s2 h
      · rw [dedupKeep, if_neg hw, dedupKeep, if_neg (fun hx => hw ((h w).mpr hx))]
        congr 1
        refine ih (w :: s1) (w :: s2) (fun v => ?_)
        simp [h v]

theorem dedupKeep_nodup_notin (l seen : List String) :
    (dedupKeep seen l).Nodup ∧ ∀ w ∈ dedupKeep seen l, w ∉ seen := by
  induction l generalizing seen with
  | nil => simp [dedupKeep]
  | cons w rest ih =>
      by_cases hw : w ∈ seen
      · rw [dedupKeep, if_pos hw]
        exact ih seen
      · rw [dedupKeep, if_neg hw]
        obtain ⟨hnd, hni⟩ := ih (w :: seen)
        refine ⟨List.nodup_cons.mpr ⟨fun hx => ?_, hnd⟩, ?_⟩
        · exact hni w hx (List.mem_cons_self _ _)
        · intro v hv
          rcases List.mem_cons.mp hv with rfl | hv
          · exact hw
          · intro hvs
            exact hni v hv (List.mem_cons_of_mem _ hvs)

theorem dedupKeep_sublist (l seen : List String) : (dedupKeep seen l).Sublist l := by
  induction l generalizing seen with
  | nil => simp [dedupKeep]
  | cons w rest ih =>
      by_cases hw : w ∈ seen
      · rw [dedupKeep, if_pos hw]
        exact (ih seen).cons w
      · rw [dedupKeep, if_neg hw]
        exact (ih (w :: seen)).cons₂ w

theorem dedupKeep_append (l1 l2 s : List String) :
    dedupKeep s (l1 ++ l2) = dedupKeep s l1 ++ dedupKeep (l1 ++ s) l2 := by
  induction l1 generalizing s with
  | nil => simp [dedupKeep]
  | cons w l1 ih =>
      simp only [List.cons_append]
      by_cases hw : w ∈ s
      · have h2 : dedupKeep s (w :: l1) = dedupKeep s l1 := by
          rw [dedupKeep, if_pos hw]
        have h3 : dedupKeep (w :: (l1 ++ s)) l2 = dedupKeep (l1 ++ s) l2 := by
          refine dedupKeep_congr l2 _ _ (fun v => ⟨fun hv => ?_, fun hv => ?_⟩)
          · rcases List.mem_cons.mp hv with rfl | hv
            · exact List.mem_append_right _ hw
            · exact hv
          · exact List.mem_cons_of_mem _ hv
        rw [dedupKeep, if_pos hw, h2, h3]
        exact ih s
      · have h1 : dedupKeep s (w :: (l1 ++ l2)) = w :: dedupKeep (w :: s) (l1 ++ l2) := by
          rw [dedupKeep, if_neg hw]
        have h2 : dedupKeep s (w :: l1) = w :: dedupKeep (w :: s) l1 := by
          rw [dedupKeep, if_neg hw]
        have h3 : dedupKeep (w :: (l1 ++ s)) l2 = dedupKeep (l1 ++ (w :: s)) l2 := by
          refine dedupKeep_congr l2 _ _ (fun v => ⟨fun hv => ?_, fun hv => ?_⟩)
          · rcases List.mem_cons.mp hv with rfl | hv
            · exact List.mem_append_right _ (List.mem_cons_self _ _)
            · rcases List.mem_append.mp hv with hv | hv
              · exact List.mem_append_left _ hv
              · exact List.mem_append_right _ (List.mem_cons_of_mem _ hv)
          · rcases List.mem_append.mp hv with hv | hv
            · exact List.mem_cons_of_mem _ (List.mem_append_left _ hv)
            · rcases List.mem_cons.mp hv with rfl | hv
              · exact List.mem_cons_self _ _
              · exact List.mem_cons_of_mem _ (List.mem_append_right _ hv)
        rw [h1, h2, h3, ih (w :: s), List.cons_append]

/-! ### C2 — TokenSet invariants -/

/-- C2: the final per-title token list has at most 40 entries, no duplicate
text values, preserves the order of the token stream `phrases ++ tokens`,
and equals the first 40 entries of the deduplicated phrases followed by the
deduplicated single tokens with every token equal to some phrase removed —
so a merged phrase always precedes (never follows) an identical single
token. The same holds for `tokenize` on any title. -/
theorem tokenset_invariants :
    (∀ (stop_set : List String) (pos_list : List (String × String)),
       (postProcess stop_set pos_list).length ≤ 40 ∧
       (postProcess stop_set pos_list).Nodup ∧
       (postProcess stop_set pos_list).Sublist
         (phrasesList stop_set pos_list ++ pos_list.map Prod.fst) ∧
       postProcess stop_set pos_list =
         (dedupKeep [] (phrasesList stop_set pos_list) ++
           dedupKeep (phrasesList stop_set pos_list) (pos_list.map Prod.fst)).take 40) ∧
    (∀ (segf : String → List (String × String)) (stop_set : List String) (title : String),
       (tokenize segf stop_set title).length ≤ 40 ∧ (tokenize segf stop_set title).Nodup) := by
  have hmain : ∀ (stop_set : List String) (pos_list : List (String × String)),
      (postProcess stop_set pos_list).length ≤ 40 ∧
      (postProcess stop_set pos_list).Nodup ∧
      (postProcess stop_set pos_list).Sublist
        (phrasesList stop_set pos_list ++ pos_list.map Prod.fst) ∧
      postProcess stop_set pos_list =
        (dedupKeep [] (phrasesList stop_set pos_list) ++
          dedupKeep (phrasesList stop_set pos_list) (pos_list.map Prod.fst)).take 40 := by
    intro stop_set pos_list
    refine ⟨?_, ?_, ?_, ?_⟩
    · rw [postProcess, List.length_take]
      exact min_le_left _ _
    · exact ((dedupKeep_nodup_notin _ []).1).sublist (List.take_sublist _ _)
    · exact (List.take_sublist _ _).trans (dedupKeep_sublist _ [])
    · rw [postProcess, dedupKeep_append]
      rw [List.append_nil]
  refine ⟨hmain, fun segf stop_set title => ?_⟩
  rw [tokenize]
  split
  · simp
  · exact ⟨(hmain _ _).1, (hmain _ _).2.1⟩

/-! ### C9 — Top-N selector -/

theorem topGE_trans (a b c : String × Int) :
    topGE a b = true → topGE b c = true → topGE a c = true := by
  simp only [topGE, decide_eq_true_eq]
  omega

theorem topGE_total (a b : String × Int) : (topGE a b || topGE b a) = true := by
  simp only [topGE, Bool.or_eq_true, decide_eq_true_eq]
  omega

/-- C9: `parse_top20` returns a list sorted descending by total weight that
is the first-20 prefix of a descending reordering of all parseable lines
(so it has `min 20 n` entries and every returned entry weighs at least as
much as every dropped one), and a line without a tab or with a non-integer
weight contributes nothing. -/
theorem top20_selector_spec (lines : List String) :
    (parse_top20 lines).Sorted (fun a b => b.2 ≤ a.2) ∧
    (parse_top20 lines).length = min 20 (topData lines).length ∧
    (∃ rest, ((parse_top20 lines) ++ rest).Perm (topData lines) ∧
       ∀ a ∈ parse_top20 lines, ∀ b ∈ rest, b.2 ≤ a.2) ∧
    (∀ line, parseTopLine line = none →
       parse_top20 (line :: lines) = parse_top20 lines) := by
  have hperm : ((topData lines).mergeSort topGE).Perm (topData lines) :=
    List.mergeSort_perm _ _
  have hsorted : ((topData lines).mergeSort topGE).Pairwise (fun a b => b.2 ≤ a.2) := by
    refine List.Pairwise.imp ?_ (List.sorted_mergeSort topGE_trans topGE_total (topData lines))
    intro a b h
    simpa [topGE] using h
  refine ⟨?_, ?_, ?_, ?_⟩
  · exact hsorted.sublist (List.take_sublist _ _)
  · rw [parse_top20, List.length_take, hperm.length_eq]
  · refine ⟨((topData lines).mergeSort topGE).drop 20, ?_, ?_⟩
    · rw [parse_top20, List.take_append_drop]
      exact hperm
    · have hpa : (((topData lines).mergeSort topGE).take 20 ++
          ((topData lines).mergeSort topGE).drop 20).Pairwise (fun a b => b.2 ≤ a.2) := by
        rw [List.take_append_drop]
        exact hsorted
      exact (List.pairwise_append.mp hpa).2.2
  · intro line h
    rw [parse_top20, parse_top20, topData, topData, List.filterMap_cons, h]

/-- Witness for the skip clause of C9: a tab-free line contributes nothing. -/
theorem top20_selector_spec_witness :
    parseTopLine "no tab here" = none ∧
    parse_top20 ["no tab here", "b\t9", "a\t5"] = parse_top20 ["b\t9", "a\t5"] :=
  ⟨by decide, (top20_selector_spec ["b\t9", "a\t5"]).2.2.2 "no tab here" (by decide)⟩

/-! ### C8 — segment.py main is all-or-nothing -/

/-- C8: `main` is fatal — stderr message and nonzero exit, with no write of
the output file — exactly when the input file is absent or the batch yields
zero usable output lines; otherwise its trace is one complete write of all
usable lines followed by the stdout report, so any written output is the
complete batch. -/
theorem segment_main_atomic (segf : String → List (String × String))
    (stop_set : List String) (input : Option String) :
    (mainModel segf stop_set input = [Eff.stderrMsg, Eff.exitFail] ↔
       (input = none ∨ ∃ raw, input = some raw ∧ usableLines segf stop_set raw = [])) ∧
    (∀ raw, input = some raw → usableLines segf stop_set raw ≠ [] →
       mainModel segf stop_set input =
         [Eff.writeOut (usableLines segf stop_set raw), Eff.stdoutMsg]) ∧
    (∀ outs, Eff.writeOut outs ∈ mainModel segf stop_set input →
       mainModel segf stop_set input = [Eff.writeOut outs, Eff.stdoutMsg] ∧ outs ≠ []) := by
  refine ⟨?_, ?_, ?_⟩
  · cases input with
    | none => simp [mainModel]
    | some raw =>
        by_cases houts : usableLines segf stop_set raw = []
        · rw [mainModel]
          rw [if_pos houts]
          simp only [true_iff, iff_true]
          exact Or.inr ⟨raw, rfl, houts⟩
        · rw [mainModel]
          rw [if_neg houts]
          constructor
          · intro h
            exact absurd h (by simp)
          · rintro (h | ⟨raw', hr, hu⟩)
            · exact absurd h (by simp)
            · obtain rfl : raw = raw' := by simpa using hr
              exact absurd hu houts
  · intro raw hin hne
    subst hin
    rw [mainModel]
    rw [if_neg hne]
  · intro outs hmem
    cases input with
    | none => simp [mainModel] at hmem
    | some raw =>
        by_cases houts : usableLines segf stop_set raw = []
        · rw [mainModel, if_pos houts] at hmem
          simp at hmem
        · rw [mainModel, if_neg houts] at hmem
          have : outs = usableLines segf stop_set raw := by
            simpa using hmem
          subst this
          rw [mainModel, if_neg houts]
          exact ⟨rfl, houts⟩

/-- Concrete segmenter oracle used by the C8 witness. -/
def segfW : String → List (String × String) :=
  fun _ => [("你好", "n"), ("世界", "n")]

/-- Witness for C8: a batch whose single title is pure punctuation is fatal,
and a batch with one segmentable title writes exactly its full output. -/
theorem segment_main_atomic_witness :
    (usableLines segfW [] "1,!!!" = [] ∧
       mainModel segfW [] (some "1,!!!") = [Eff.stderrMsg, Eff.exitFail]) ∧
    (usableLines segfW [] "1,天气" = ["1,你好世界 你好 世界"] ∧
       mainModel segfW [] (some "1,天气") =
         [Eff.writeOut ["1,你好世界 你好 世界"], Eff.stdoutMsg]) :=
  ⟨⟨by decide,
     (segment_main_atomic segfW [] (some "1,!!!")).1.mpr
       (Or.inr ⟨"1,!!!", rfl, by decide⟩)⟩,
   ⟨by decide, by
     have h := (segment_main_atomic segfW [] (some "1,天气")).2.1 "1,天气" rfl (by decide)
     rw [h]
     decide⟩⟩

end Hadoop
